import Mathlib

set_option linter.unusedSectionVars false

/-!
Shallow embedding of the TuxedoVault Soroban contract
(src/contracts/vault/src/lib.rs) and verification of its specification.

Modelling conventions:
* Rust `i128` values are embedded as `Int`; Rust `/` on `i128` truncates
  toward zero, which is `Int.tdiv`.  Where the wrap-on-overflow behaviour of
  unchecked release-mode arithmetic matters, a separate wrapping variant with
  an explicit `% 2^128` reduction is used.
* Contract storage (the per-user share ledger, and per-token balances of the
  asset-transfer port) is embedded as association lists with integer values;
  an absent key reads as 0, matching `unwrap_or(0)` in the source.
* The authorization port (`require_auth`) aborts the whole call before any
  vault code runs when it fails, so the embedding models only the calls that
  pass authorization.
* Each operation returns the final storage state together with
  `Except VaultError r`.  Failures return the storage exactly as written up
  to the failure point (no host-level rollback is assumed), so the
  error-atomicity statements below are structural facts about the code, not
  artifacts of the embedding.
-/

namespace Tuxedo

/-- Truncating division, the semantics of `/` on Rust `i128`. -/
def i128div (a b : Int) : Int := Int.tdiv a b

/-- const INITIAL_SHARE_VALUE: i128 = 10_000_000 (also called SCALE in the spec). -/
def INITIAL_SHARE_VALUE : Int := 10000000

/-- const PLATFORM_FEE_BPS: i128 = 200. -/
def PLATFORM_FEE_BPS : Int := 200

/-- const BPS_DENOMINATOR: i128 = 10_000. -/
def BPS_DENOMINATOR : Int := 10000

/-- The `VaultError` enum of the source. -/
inductive VaultError where
  | AlreadyInitialized
  | NotAuthorized
  | InvalidAmount
  | InsufficientShares
  | InsufficientBalance
  | NoYieldToDistribute
  | InvalidAsset
  | TransferFailed
  | DivisionByZero
  deriving DecidableEq, Repr

/-- Principals and contract identifiers are modelled as naturals. -/
abbrev Addr := Nat

/-- The vault contract's own address (`env.current_contract_address()`). -/
def vaultAddr : Addr := 0

section AssocList

variable {κ : Type} [DecidableEq κ]

/-- Storage read with default 0 (`get(..).unwrap_or(0)`). -/
def alGet : List (κ × Int) → κ → Int
  | [], _ => 0
  | p :: rest, k => if p.1 = k then p.2 else alGet rest k

/-- Storage `remove(key)`. -/
def alRemove : List (κ × Int) → κ → List (κ × Int)
  | [], _ => []
  | p :: rest, k => if p.1 = k then alRemove rest k else p :: alRemove rest k

/-- Storage `set(key, value)`. -/
def alSet (l : List (κ × Int)) (k : κ) (v : Int) : List (κ × Int) :=
  (k, v) :: alRemove l k

/-- Sum of all stored values. -/
def alSum (l : List (κ × Int)) : Int := (l.map Prod.snd).sum

end AssocList

/-- Balances of the asset-transfer port, keyed by (token address, holder). -/
abbrev Balances := List ((Addr × Addr) × Int)

/-- The strategy action Symbol: the source compares it against the symbols
"supply" and "withdraw"; any other symbol falls to the default match arm. -/
inductive ActionSym where
  | supply
  | withdrawSym
  | other
  deriving DecidableEq, Repr

/-- The `Strategy` struct of the source. -/
structure Strategy where
  action : ActionSym
  pool : Addr
  asset : Addr
  amount : Int
  deriving DecidableEq, Repr

/-- Vault contract storage plus the asset-transfer port's balances.
`isInit` models `storage().instance().has(&ADMIN)`; `usdc` is the SHARE_TOKEN
slot; `totalShares` is T_SHARES; `initialDeposits` is INIT_DEP (the spec's
deposit basis); `ledger` holds the persistent ("shares", user) entries;
`yieldEvents` records the payloads of published ("vault","yield") events. -/
structure State where
  isInit : Bool
  admin : Addr
  agent : Addr
  platform : Addr
  usdc : Addr
  totalShares : Int
  initialDeposits : Int
  ledger : List (Addr × Int)
  bal : Balances
  yieldEvents : List (Int × Int)
  deriving DecidableEq, Repr

/-- The asset-transfer port: `token_client.transfer(from, to, amount)`.
Per the spec (§6) it fails on a negative amount or insufficient balance of
the source; on success it moves `amount` between the two holders. -/
def transfer {κ : Type} [DecidableEq κ] (b : List (κ × Int)) (src dst : κ)
    (amount : Int) : Except VaultError (List (κ × Int)) :=
  if amount < 0 then .error .TransferFailed
  else if alGet b src < amount then .error .TransferFailed
  else
    let b1 := alSet b src (alGet b src - amount)
    .ok (alSet b1 dst (alGet b1 dst + amount))

/-- fn get_total_vault_assets: the vault's live balance of the USDC token. -/
def get_total_vault_assets (s : State) : Int := alGet s.bal (s.usdc, vaultAddr)

/-- fn calculate_share_value: `(total_assets * 10^7) / total_shares`, or the
par value when no shares are outstanding. -/
def calculate_share_value (s : State) : Int :=
  let total_assets := get_total_vault_assets s
  if s.totalShares = 0 then INITIAL_SHARE_VALUE
  else i128div (total_assets * INITIAL_SHARE_VALUE) s.totalShares

/-- pub fn get_share_value. -/
def get_share_value (s : State) : Int := calculate_share_value s

/-- pub fn get_total_shares. -/
def get_total_shares (s : State) : Int := s.totalShares

/-- pub fn get_user_shares. -/
def get_user_shares (s : State) (user : Addr) : Int := alGet s.ledger user

/-- The `initialize` entry point of the source (named `initVault` here). -/
def initVault (s : State) (admin agent platform usdc_asset : Addr) :
    State × Except VaultError Unit :=
  if s.isInit then (s, .error .AlreadyInitialized)
  else
    ({ s with isInit := true, admin := admin, agent := agent,
              platform := platform, usdc := usdc_asset,
              totalShares := 0, initialDeposits := 0 },
     .ok ())

/-- pub fn deposit. On failure the first component is the storage exactly as
written up to the failure point. -/
def deposit (s : State) (user : Addr) (amount : Int) :
    State × Except VaultError Int :=
  if amount ≤ 0 then (s, .error .InvalidAmount)
  else
    let share_value := calculate_share_value s
    let shares_to_mint :=
      if share_value = 0 then amount
      else i128div (amount * INITIAL_SHARE_VALUE) share_value
    if shares_to_mint ≤ 0 then (s, .error .InvalidAmount)
    else
      match transfer s.bal (s.usdc, user) (s.usdc, vaultAddr) amount with
      | .error e => (s, .error e)
      | .ok bal1 =>
          ({ s with bal := bal1,
                    totalShares := s.totalShares + shares_to_mint,
                    initialDeposits := s.initialDeposits + amount,
                    ledger := alSet s.ledger user
                      (alGet s.ledger user + shares_to_mint) },
           .ok shares_to_mint)

/-- pub fn withdraw. The ledger/aggregate writes precede the asset push,
exactly as in the source; a failed push would expose the partial state. -/
def withdraw (s : State) (user : Addr) (shares : Int) :
    State × Except VaultError Int :=
  if shares ≤ 0 then (s, .error .InvalidAmount)
  else
    let user_shares := alGet s.ledger user
    if user_shares < shares then (s, .error .InsufficientShares)
    else
      let share_value := calculate_share_value s
      let assets_to_return := i128div (shares * share_value) INITIAL_SHARE_VALUE
      if assets_to_return ≤ 0 then (s, .error .InvalidAmount)
      else
        let total_assets := get_total_vault_assets s
        if total_assets < assets_to_return then (s, .error .InsufficientBalance)
        else
          let new_user_shares := user_shares - shares
          let ledger1 :=
            if new_user_shares = 0 then alRemove s.ledger user
            else alSet s.ledger user new_user_shares
          let total_shares := s.totalShares
          let initial_deposits := s.initialDeposits
          let deposit_reduction :=
            if total_shares > 0 then
              i128div (initial_deposits * shares) total_shares
            else initial_deposits
          let s2 := { s with ledger := ledger1,
                             totalShares := total_shares - shares,
                             initialDeposits := initial_deposits - deposit_reduction }
          match transfer s2.bal (s.usdc, vaultAddr) (s.usdc, user) assets_to_return with
          | .error e => (s2, .error e)
          | .ok bal1 => ({ s2 with bal := bal1 }, .ok assets_to_return)

/-- pub fn agent_execute. Moves `strategy.amount` of `strategy.asset` between
the vault and `strategy.pool`; touches no vault storage slot. -/
def agent_execute (s : State) (strategy : Strategy) :
    State × Except VaultError Unit :=
  if strategy.amount ≤ 0 then (s, .error .InvalidAmount)
  else
    match strategy.action with
    | .supply =>
        match transfer s.bal (strategy.asset, vaultAddr)
            (strategy.asset, strategy.pool) strategy.amount with
        | .error e => (s, .error e)
        | .ok b => ({ s with bal := b }, .ok ())
    | .withdrawSym =>
        match transfer s.bal (strategy.asset, strategy.pool)
            (strategy.asset, vaultAddr) strategy.amount with
        | .error e => (s, .error e)
        | .ok b => ({ s with bal := b }, .ok ())
    | .other => (s, .error .NotAuthorized)

/-- pub fn distribute_yield. Returns `Ok(())` on success; the pair
`(yield_earned, platform_fee)` is only published as the event payload. -/
def distribute_yield (s : State) : State × Except VaultError Unit :=
  let total_assets := get_total_vault_assets s
  let initial_deposits := s.initialDeposits
  let yield_earned := total_assets - initial_deposits
  if yield_earned ≤ 0 then (s, .error .NoYieldToDistribute)
  else
    let platform_fee := i128div (yield_earned * PLATFORM_FEE_BPS) BPS_DENOMINATOR
    if platform_fee ≤ 0 then (s, .error .NoYieldToDistribute)
    else
      match transfer s.bal (s.usdc, vaultAddr) (s.usdc, s.platform) platform_fee with
      | .error e => (s, .error e)
      | .ok bal1 =>
          ({ s with bal := bal1,
                    initialDeposits := initial_deposits + (yield_earned - platform_fee),
                    yieldEvents := (yield_earned, platform_fee) :: s.yieldEvents },
           .ok ())

instance {ε α : Type} [DecidableEq ε] [DecidableEq α] : DecidableEq (Except ε α) :=
  fun a b =>
  match a, b with
  | .ok x, .ok y =>
      if h : x = y then .isTrue (by rw [h])
      else .isFalse (by intro hc; cases hc; exact h rfl)
  | .error x, .error y =>
      if h : x = y then .isTrue (by rw [h])
      else .isFalse (by intro hc; cases hc; exact h rfl)
  | .ok _, .error _ => .isFalse (by intro hc; cases hc)
  | .error _, .ok _ => .isFalse (by intro hc; cases hc)

/-- Structural well-formedness of a vault state: the share-sum invariant,
positivity of ledger entries (zero entries are removed, never stored),
uniqueness of storage keys, a nonnegative deposit basis, and nonnegative
token balances. -/
def WF (s : State) : Prop :=
  s.isInit = true ∧
  alSum s.ledger = s.totalShares ∧
  (∀ p ∈ s.ledger, 0 < p.2) ∧
  (s.ledger.map Prod.fst).Nodup ∧
  0 ≤ s.initialDeposits ∧
  (∀ p ∈ s.bal, 0 ≤ p.2)

/-- A freshly deployed, never-initialized contract, together with arbitrary
pre-existing token balances held at the asset-transfer port. -/
def pristine (bal : Balances) : State :=
  { isInit := false, admin := 0, agent := 0, platform := 0, usdc := 0,
    totalShares := 0, initialDeposits := 0, ledger := [], bal := bal,
    yieldEvents := [] }

/-- States reachable by a sequence of public contract calls starting with
`initialize` on a fresh contract (arbitrary external token balances). -/
inductive Reachable : State → Prop where
  | init : ∀ bal adm ag pl usd, (∀ p ∈ bal, 0 ≤ p.2) →
      Reachable (initVault (pristine bal) adm ag pl usd).1
  | dep : ∀ {s : State} (u : Addr) (a : Int), Reachable s →
      Reachable (deposit s u a).1
  | wd : ∀ {s : State} (u : Addr) (n : Int), Reachable s →
      Reachable (withdraw s u n).1
  | exec : ∀ {s : State} (st : Strategy), Reachable s →
      Reachable (agent_execute s st).1
  | dist : ∀ {s : State}, Reachable s → Reachable (distribute_yield s).1
  | reinit : ∀ {s : State} (adm ag pl usd : Addr), Reachable s →
      Reachable (initVault s adm ag pl usd).1

/-- A reachable demonstration state: fresh vault (USDC token 1, platform 2),
then a deposit of 100 by user 7. -/
def exReach : State :=
  (deposit (initVault (pristine [((1, 7), 1000)]) 9 3 2 1).1 7 100).1

/-- A configured state where user 5 holds 500 shares and the vault holds 500
units of USDC. -/
def ex2 : State :=
  { isInit := true, admin := 9, agent := 3, platform := 2, usdc := 1,
    totalShares := 500, initialDeposits := 500, ledger := [(5, 500)],
    bal := [((1, 0), 500)], yieldEvents := [] }

/-- A configured state with deposit basis 1_000_000_000 and live vault
balance 1_100_000_000 (the spec's yield-split example). -/
def exYield : State :=
  { isInit := true, admin := 9, agent := 3, platform := 2, usdc := 1,
    totalShares := 1000000000, initialDeposits := 1000000000,
    ledger := [(5, 1000000000)], bal := [((1, 0), 1100000000)],
    yieldEvents := [] }

/-- A state with one outstanding share backed by 10^9 units of USDC (share
value 10^16), and user 7 holding 2*10^9 units. -/
def ex4 : State :=
  { isInit := true, admin := 9, agent := 3, platform := 2, usdc := 1,
    totalShares := 1, initialDeposits := 1000000000,
    ledger := [(5, 1)], bal := [((1, 0), 1000000000), ((1, 7), 2000000000)],
    yieldEvents := [] }

/-- A completely fresh vault (no shares, no vault balance) with user 7
holding 1000 units of USDC. -/
def ex4w : State :=
  { isInit := true, admin := 9, agent := 3, platform := 2, usdc := 1,
    totalShares := 0, initialDeposits := 0, ledger := [],
    bal := [((1, 7), 1000)], yieldEvents := [] }

/-- A state with one outstanding share backed by 2 units (share value
2*10^7), used to exercise the non-par deposit path. -/
def ex5 : State :=
  { isInit := true, admin := 9, agent := 3, platform := 2, usdc := 1,
    totalShares := 1, initialDeposits := 2,
    ledger := [(5, 1)], bal := [((1, 0), 2), ((1, 7), 10)],
    yieldEvents := [] }

/-- 2^127, written out because kernel reduction of `2 ^ 127` through the
monoid power recursion is impractically deep. -/
def twoPow127 : Int := 170141183460469231731687303715884105728

/-- 2^128 written out. -/
def twoPow128 : Int := 340282366920938463463374607431768211456

/-- Largest value representable in an i128. -/
def i128Max : Int := twoPow127 - 1

/-- Two's-complement reduction of an unbounded integer into the i128 range,
the result of release-mode unchecked multiplication when the true product
overflows. -/
def wrap128 (x : Int) : Int := (x + twoPow127) % twoPow128 - twoPow127

/-- fn calculate_share_value as executed on wrapping i128 arithmetic: the
product `total_assets * 10^7` reduces modulo 2^128. -/
def calculate_share_value_wrapped (s : State) : Int :=
  let total_assets := get_total_vault_assets s
  if s.totalShares = 0 then INITIAL_SHARE_VALUE
  else i128div (wrap128 (total_assets * INITIAL_SHARE_VALUE)) s.totalShares

/-- pub fn deposit as executed on wrapping i128 arithmetic: identical to
`deposit` except that the unchecked products reduce modulo 2^128 instead of
being range-checked. -/
def deposit_wrapped (s : State) (user : Addr) (amount : Int) :
    State × Except VaultError Int :=
  if amount ≤ 0 then (s, .error .InvalidAmount)
  else
    let share_value := calculate_share_value_wrapped s
    let shares_to_mint :=
      if share_value = 0 then amount
      else i128div (wrap128 (amount * INITIAL_SHARE_VALUE)) share_value
    if shares_to_mint ≤ 0 then (s, .error .InvalidAmount)
    else
      match transfer s.bal (s.usdc, user) (s.usdc, vaultAddr) amount with
      | .error e => (s, .error e)
      | .ok bal1 =>
          ({ s with bal := bal1,
                    totalShares := s.totalShares + shares_to_mint,
                    initialDeposits := s.initialDeposits + amount,
                    ledger := alSet s.ledger user
                      (alGet s.ledger user + shares_to_mint) },
           .ok shares_to_mint)

/-- A state whose configured platform fee account is the vault contract
itself, with 10000 units of undistributed yield. -/
def exSelfPlat : State :=
  { isInit := true, admin := 9, agent := 3, platform := vaultAddr, usdc := 1,
    totalShares := 10000, initialDeposits := 0,
    ledger := [(5, 10000)], bal := [((1, 0), 10000)], yieldEvents := [] }

/-- A state whose share value is 2*10^7 (one share backed by 2 units), with
user 7 rich enough to deposit 4*10^31 units. -/
def exOvf : State :=
  { isInit := true, admin := 9, agent := 3, platform := 2, usdc := 1,
    totalShares := 1, initialDeposits := 2,
    ledger := [(5, 1)],
    bal := [((1, 0), 2), ((1, 7), 100000000000000000000000000000000)],
    yieldEvents := [] }

section AssocLemmas

variable {κ : Type} [DecidableEq κ]

theorem alGet_nil (k : κ) : alGet ([] : List (κ × Int)) k = 0 := rfl

theorem alSum_nil : alSum ([] : List (κ × Int)) = 0 := rfl

theorem alSum_cons (p : κ × Int) (rest : List (κ × Int)) :
    alSum (p :: rest) = p.2 + alSum rest := by
  simp [alSum]

theorem alGet_cons (p : κ × Int) (rest : List (κ × Int)) (k : κ) :
    alGet (p :: rest) k = if p.1 = k then p.2 else alGet rest k := rfl

theorem mem_alRemove {l : List (κ × Int)} {k : κ} {p : κ × Int}
    (h : p ∈ alRemove l k) : p ∈ l := by
  induction l with
  | nil => simp [alRemove] at h
  | cons q rest ih =>
    rw [alRemove] at h
    by_cases hq : q.1 = k
    · simp only [hq, if_pos rfl] at h
      exact List.mem_cons_of_mem q (ih h)
    · simp only [if_neg hq, List.mem_cons] at h
      rcases h with h | h
      · exact h ▸ List.mem_cons_self q rest
      · exact List.mem_cons_of_mem q (ih h)

theorem alRemove_eq_of_not_mem {l : List (κ × Int)} {k : κ}
    (h : k ∉ l.map Prod.fst) : alRemove l k = l := by
  induction l with
  | nil => rfl
  | cons q rest ih =>
    simp only [List.map_cons, List.mem_cons] at h
    push_neg at h
    rw [alRemove, if_neg (fun hq => h.1 hq.symm), ih h.2]

theorem alGet_eq_zero_of_not_mem {l : List (κ × Int)} {k : κ}
    (h : k ∉ l.map Prod.fst) : alGet l k = 0 := by
  induction l with
  | nil => rfl
  | cons q rest ih =>
    simp only [List.map_cons, List.mem_cons] at h
    push_neg at h
    rw [alGet, if_neg (fun hq => h.1 hq.symm)]
    exact ih h.2

theorem keys_alRemove_sublist (l : List (κ × Int)) (k : κ) :
    ((alRemove l k).map Prod.fst).Sublist (l.map Prod.fst) := by
  induction l with
  | nil => simp [alRemove]
  | cons q rest ih =>
    rw [alRemove]
    by_cases hq : q.1 = k
    · simp only [if_pos hq]
      exact ih.trans (List.sublist_cons_self _ _)
    · simp only [if_neg hq, List.map_cons]
      exact ih.cons₂ q.1

theorem nodup_keys_alRemove {l : List (κ × Int)} (k : κ)
    (h : (l.map Prod.fst).Nodup) : ((alRemove l k).map Prod.fst).Nodup :=
  (keys_alRemove_sublist l k).nodup h

theorem not_mem_keys_alRemove (l : List (κ × Int)) (k : κ) :
    k ∉ (alRemove l k).map Prod.fst := by
  induction l with
  | nil => simp [alRemove]
  | cons q rest ih =>
    rw [alRemove]
    by_cases hq : q.1 = k
    · simpa [hq] using ih
    · simp only [if_neg hq, List.map_cons, List.mem_cons]
      push_neg
      exact ⟨fun hk => hq hk.symm, ih⟩

theorem nodup_keys_alSet {l : List (κ × Int)} (k : κ) (v : Int)
    (h : (l.map Prod.fst).Nodup) : ((alSet l k v).map Prod.fst).Nodup := by
  rw [alSet, List.map_cons]
  exact List.nodup_cons.mpr ⟨not_mem_keys_alRemove l k, nodup_keys_alRemove k h⟩

theorem alGet_alSet_self (l : List (κ × Int)) (k : κ) (v : Int) :
    alGet (alSet l k v) k = v := by
  rw [alSet, alGet, if_pos rfl]

theorem alGet_alSet_ne (l : List (κ × Int)) {k k' : κ} (v : Int) (h : k ≠ k') :
    alGet (alSet l k v) k' = alGet l k' := by
  rw [alSet, alGet, if_neg h]
  induction l with
  | nil => rfl
  | cons q rest ih =>
    rw [alRemove]
    by_cases hq : q.1 = k
    · rw [if_pos hq, ih, alGet, if_neg (by rw [hq]; exact h)]
    · rw [if_neg hq, alGet, alGet]
      by_cases hq' : q.1 = k'
      · rw [if_pos hq', if_pos hq']
      · rw [if_neg hq', if_neg hq', ih]

theorem alSum_alRemove {l : List (κ × Int)} (k : κ)
    (h : (l.map Prod.fst).Nodup) : alSum (alRemove l k) = alSum l - alGet l k := by
  induction l with
  | nil => simp [alRemove, alSum, alGet]
  | cons q rest ih =>
    rw [List.map_cons, List.nodup_cons] at h
    by_cases hq : q.1 = k
    · rw [alRemove, if_pos hq, alGet, if_pos hq, alRemove_eq_of_not_mem (hq ▸ h.1),
        alSum_cons]
      ring
    · rw [alRemove, if_neg hq, alGet, if_neg hq, alSum_cons, alSum_cons, ih h.2]
      ring

theorem alSum_alSet {l : List (κ × Int)} (k : κ) (v : Int)
    (h : (l.map Prod.fst).Nodup) : alSum (alSet l k v) = alSum l - alGet l k + v := by
  rw [alSet]
  show v + alSum (alRemove l k) = alSum l - alGet l k + v
  rw [alSum_alRemove k h]
  ring

theorem alGet_nonneg {l : List (κ × Int)} (k : κ)
    (h : ∀ p ∈ l, 0 ≤ p.2) : 0 ≤ alGet l k := by
  induction l with
  | nil => simp [alGet]
  | cons q rest ih =>
    rw [alGet]
    by_cases hq : q.1 = k
    · rw [if_pos hq]; exact h q (List.mem_cons_self q rest)
    · rw [if_neg hq]
      exact ih (fun p hp => h p (List.mem_cons_of_mem q hp))

theorem alSum_nonneg {l : List (κ × Int)}
    (h : ∀ p ∈ l, 0 ≤ p.2) : 0 ≤ alSum l := by
  induction l with
  | nil => simp [alSum]
  | cons q rest ih =>
    rw [alSum_cons]
    have h1 := h q (List.mem_cons_self q rest)
    have h2 := ih (fun p hp => h p (List.mem_cons_of_mem q hp))
    omega

theorem alGet_le_alSum {l : List (κ × Int)} (k : κ)
    (h : ∀ p ∈ l, 0 ≤ p.2) : alGet l k ≤ alSum l := by
  induction l with
  | nil => simp [alGet, alSum]
  | cons q rest ih =>
    have h1 := h q (List.mem_cons_self q rest)
    have hrest : ∀ p ∈ rest, 0 ≤ p.2 := fun p hp => h p (List.mem_cons_of_mem q hp)
    have h2 := alSum_nonneg hrest
    rw [alGet, alSum_cons]
    by_cases hq : q.1 = k
    · rw [if_pos hq]
      omega
    · rw [if_neg hq]
      have h3 := ih hrest
      omega

end AssocLemmas

theorem i128div_nonneg {a b : Int} (ha : 0 ≤ a) (hb : 0 ≤ b) : 0 ≤ i128div a b :=
  Int.tdiv_nonneg ha hb

theorem i128div_eq_ediv {a b : Int} (ha : 0 ≤ a) (hb : 0 ≤ b) :
    i128div a b = a / b := Int.tdiv_eq_ediv ha hb

theorem i128div_le_i128div {a b c : Int} (hc : 0 < c) (ha : 0 ≤ a) (h : a ≤ b) :
    i128div a c ≤ i128div b c := by
  rw [i128div_eq_ediv ha hc.le, i128div_eq_ediv (ha.trans h) hc.le]
  exact Int.ediv_le_ediv hc h

theorem i128div_mul_cancel {a b : Int} (ha : 0 ≤ a) (hb : 0 < b) :
    i128div (a * b) b = a := by
  rw [i128div_eq_ediv (by positivity) hb.le]
  exact Int.mul_ediv_cancel a hb.ne'

/-- Proportionality bound: `⌊B * n / T⌋ ≤ B` when `0 ≤ B` and `0 ≤ n ≤ T`. -/
theorem i128div_mul_le_self {B n T : Int} (hB : 0 ≤ B) (hT : 0 < T)
    (hn : 0 ≤ n) (hnT : n ≤ T) : i128div (B * n) T ≤ B := by
  have h1 : B * n ≤ B * T := mul_le_mul_of_nonneg_left hnT hB
  calc i128div (B * n) T ≤ i128div (B * T) T :=
        i128div_le_i128div hT (by positivity) h1
    _ = B := i128div_mul_cancel hB hT

/-- Redemption bound: `n` shares priced at `⌊L*SCALE/T⌋` redeem for at most
`L` assets whenever `0 ≤ L` and `0 ≤ n ≤ T`. -/
theorem redeem_le_assets {L T n : Int} (hL : 0 ≤ L) (hT : 0 < T)
    (hn : 0 ≤ n) (hnT : n ≤ T) :
    i128div (n * i128div (L * INITIAL_SHARE_VALUE) T) INITIAL_SHARE_VALUE ≤ L := by
  have hS : (0 : Int) < INITIAL_SHARE_VALUE := by norm_num [INITIAL_SHARE_VALUE]
  have hLS : 0 ≤ L * INITIAL_SHARE_VALUE := by positivity
  have hv0 : 0 ≤ i128div (L * INITIAL_SHARE_VALUE) T := i128div_nonneg hLS hT.le
  have hvT : i128div (L * INITIAL_SHARE_VALUE) T * T ≤ L * INITIAL_SHARE_VALUE := by
    rw [i128div_eq_ediv hLS hT.le]
    exact Int.ediv_mul_le (L * INITIAL_SHARE_VALUE) hT.ne'
  have hnv : n * i128div (L * INITIAL_SHARE_VALUE) T ≤ L * INITIAL_SHARE_VALUE := by
    have h1 : n * i128div (L * INITIAL_SHARE_VALUE) T
        ≤ T * i128div (L * INITIAL_SHARE_VALUE) T :=
      mul_le_mul_of_nonneg_right hnT hv0
    have h2 : T * i128div (L * INITIAL_SHARE_VALUE) T
        = i128div (L * INITIAL_SHARE_VALUE) T * T := mul_comm _ _
    omega
  calc i128div (n * i128div (L * INITIAL_SHARE_VALUE) T) INITIAL_SHARE_VALUE
      ≤ i128div (L * INITIAL_SHARE_VALUE) INITIAL_SHARE_VALUE :=
        i128div_le_i128div hS (by positivity) hnv
    _ = L := i128div_mul_cancel hL hS

/-- The 2% fee never exceeds the yield it is taken from. -/
theorem fee_le_yield {y : Int} (hy : 0 ≤ y) :
    i128div (y * PLATFORM_FEE_BPS) BPS_DENOMINATOR ≤ y := by
  have hD : (0 : Int) < BPS_DENOMINATOR := by norm_num [BPS_DENOMINATOR]
  have h1 : y * PLATFORM_FEE_BPS ≤ y * BPS_DENOMINATOR := by
    apply mul_le_mul_of_nonneg_left _ hy
    norm_num [PLATFORM_FEE_BPS, BPS_DENOMINATOR]
  calc i128div (y * PLATFORM_FEE_BPS) BPS_DENOMINATOR
      ≤ i128div (y * BPS_DENOMINATOR) BPS_DENOMINATOR :=
        i128div_le_i128div hD
          (mul_nonneg hy (by norm_num [PLATFORM_FEE_BPS])) h1
    _ = y := i128div_mul_cancel hy hD

section TransferLemmas

variable {κ : Type} [DecidableEq κ]

theorem mem_alSet {l : List (κ × Int)} {k : κ} {v : Int} {p : κ × Int}
    (h : p ∈ alSet l k v) : p = (k, v) ∨ p ∈ l := by
  rw [alSet, List.mem_cons] at h
  exact h.imp id mem_alRemove

theorem nonneg_alSet {l : List (κ × Int)} {k : κ} {v : Int}
    (hl : ∀ p ∈ l, 0 ≤ p.2) (hv : 0 ≤ v) : ∀ p ∈ alSet l k v, 0 ≤ p.2 := by
  intro p hp
  rcases mem_alSet hp with h | h
  · rw [h]; exact hv
  · exact hl p h

theorem transfer_eq_ok {b : List (κ × Int)} {src dst : κ} {a : Int}
    (h0 : 0 ≤ a) (h1 : a ≤ alGet b src) :
    transfer b src dst a =
      .ok (alSet (alSet b src (alGet b src - a)) dst
            (alGet (alSet b src (alGet b src - a)) dst + a)) := by
  rw [transfer, if_neg (not_lt.mpr h0), if_neg (not_lt.mpr h1)]

theorem transfer_ok_elim {b b' : List (κ × Int)} {src dst : κ} {a : Int}
    (h : transfer b src dst a = .ok b') :
    0 ≤ a ∧ a ≤ alGet b src ∧
      b' = alSet (alSet b src (alGet b src - a)) dst
            (alGet (alSet b src (alGet b src - a)) dst + a) := by
  by_cases h0 : a < 0
  · rw [transfer, if_pos h0] at h; cases h
  by_cases h1 : alGet b src < a
  · rw [transfer, if_neg h0, if_pos h1] at h; cases h
  rw [transfer, if_neg h0, if_neg h1] at h
  cases h
  exact ⟨not_lt.mp h0, not_lt.mp h1, rfl⟩

theorem transfer_nonneg {b b' : List (κ × Int)} {src dst : κ} {a : Int}
    (hb : ∀ p ∈ b, 0 ≤ p.2) (h : transfer b src dst a = .ok b') :
    ∀ p ∈ b', 0 ≤ p.2 := by
  obtain ⟨h0, h1, h2⟩ := transfer_ok_elim h
  have hb1 : ∀ p ∈ alSet b src (alGet b src - a), 0 ≤ p.2 :=
    nonneg_alSet hb (by omega)
  rw [h2]
  exact nonneg_alSet hb1 (by
    have := alGet_nonneg (l := alSet b src (alGet b src - a)) dst hb1
    omega)

theorem transfer_ok_get {b b' : List (κ × Int)} {src dst : κ} {a : Int}
    (hne : src ≠ dst) (h : transfer b src dst a = .ok b') :
    alGet b' dst = alGet b dst + a ∧ alGet b' src = alGet b src - a ∧
      ∀ k, k ≠ src → k ≠ dst → alGet b' k = alGet b k := by
  obtain ⟨_, _, h2⟩ := transfer_ok_elim h
  subst h2
  refine ⟨?_, ?_, ?_⟩
  · rw [alGet_alSet_self, alGet_alSet_ne _ _ hne]
  · rw [alGet_alSet_ne _ _ (fun hdd => hne hdd.symm), alGet_alSet_self]
  · intro k hk1 hk2
    rw [alGet_alSet_ne _ _ (fun hd => hk2 hd.symm),
        alGet_alSet_ne _ _ (fun hs => hk1 hs.symm)]

end TransferLemmas

/-- Case analysis of `initVault`: a configured vault rejects the call
untouched; otherwise the config is persisted with zeroed aggregates. -/
theorem initVault_spec (s : State) (adm ag pl usd : Addr) :
    (s.isInit = true ∧
      initVault s adm ag pl usd = (s, .error .AlreadyInitialized)) ∨
    (s.isInit = false ∧
      initVault s adm ag pl usd =
        ({ s with isInit := true, admin := adm, agent := ag, platform := pl,
                  usdc := usd, totalShares := 0, initialDeposits := 0 },
         .ok ())) := by
  rw [initVault]
  by_cases h : s.isInit
  · rw [if_pos h]; exact Or.inl ⟨h, rfl⟩
  · rw [if_neg h]; exact Or.inr ⟨Bool.not_eq_true _ ▸ h, rfl⟩

/-- Case analysis of `deposit`: every failing run leaves the state untouched,
and every successful run performs exactly the source's write set. -/
theorem deposit_spec (s : State) (u : Addr) (a : Int) :
    ((∃ e, (deposit s u a).2 = .error e) ∧ (deposit s u a).1 = s) ∨
    (∃ m bal1, 0 < a ∧ 0 < m ∧
      m = (if calculate_share_value s = 0 then a
           else i128div (a * INITIAL_SHARE_VALUE) (calculate_share_value s)) ∧
      transfer s.bal (s.usdc, u) (s.usdc, vaultAddr) a = .ok bal1 ∧
      deposit s u a =
        ({ s with bal := bal1,
                  totalShares := s.totalShares + m,
                  initialDeposits := s.initialDeposits + a,
                  ledger := alSet s.ledger u (alGet s.ledger u + m) },
         .ok m)) := by
  simp only [deposit]
  by_cases h0 : a ≤ 0
  · rw [if_pos h0]; exact Or.inl ⟨⟨_, rfl⟩, rfl⟩
  rw [if_neg h0]
  by_cases h1 : (if calculate_share_value s = 0 then a
      else i128div (a * INITIAL_SHARE_VALUE) (calculate_share_value s)) ≤ 0
  · rw [if_pos h1]; exact Or.inl ⟨⟨_, rfl⟩, rfl⟩
  rw [if_neg h1]
  rcases htr : transfer s.bal (s.usdc, u) (s.usdc, vaultAddr) a with e | bal1
  · exact Or.inl ⟨⟨_, rfl⟩, rfl⟩
  · exact Or.inr ⟨_, bal1, by omega, by omega, rfl, rfl, rfl⟩

/-- Case analysis of `withdraw`.  The guards make the final asset push
infallible, so every failing run exits before the first write. -/
theorem withdraw_spec (s : State) (u : Addr) (n : Int) :
    ((∃ e, (withdraw s u n).2 = .error e) ∧ (withdraw s u n).1 = s) ∨
    (∃ r bal1, 0 < n ∧ n ≤ alGet s.ledger u ∧
      r = i128div (n * calculate_share_value s) INITIAL_SHARE_VALUE ∧
      0 < r ∧ r ≤ get_total_vault_assets s ∧
      transfer s.bal (s.usdc, vaultAddr) (s.usdc, u) r = .ok bal1 ∧
      withdraw s u n =
        ({ s with ledger :=
                    if alGet s.ledger u - n = 0 then alRemove s.ledger u
                    else alSet s.ledger u (alGet s.ledger u - n),
                  totalShares := s.totalShares - n,
                  initialDeposits := s.initialDeposits -
                    (if s.totalShares > 0 then
                       i128div (s.initialDeposits * n) s.totalShares
                     else s.initialDeposits),
                  bal := bal1 },
         .ok r)) := by
  simp only [withdraw, get_total_vault_assets]
  by_cases h0 : n ≤ 0
  · rw [if_pos h0]; exact Or.inl ⟨⟨_, rfl⟩, rfl⟩
  rw [if_neg h0]
  by_cases h1 : alGet s.ledger u < n
  · rw [if_pos h1]; exact Or.inl ⟨⟨_, rfl⟩, rfl⟩
  rw [if_neg h1]
  by_cases h2 : i128div (n * calculate_share_value s) INITIAL_SHARE_VALUE ≤ 0
  · rw [if_pos h2]; exact Or.inl ⟨⟨_, rfl⟩, rfl⟩
  rw [if_neg h2]
  by_cases h3 : alGet s.bal (s.usdc, vaultAddr)
      < i128div (n * calculate_share_value s) INITIAL_SHARE_VALUE
  · rw [if_pos h3]; exact Or.inl ⟨⟨_, rfl⟩, rfl⟩
  rw [if_neg h3]
  rw [transfer_eq_ok (by omega) (by omega)]
  exact Or.inr ⟨_, _, by omega, by omega, rfl, by omega, by omega,
    transfer_eq_ok (by omega) (by omega), rfl⟩

/-- Case analysis of `agent_execute`: the only write is the asset movement. -/
theorem agent_execute_spec (s : State) (st : Strategy) :
    ((∃ e, (agent_execute s st).2 = .error e) ∧ (agent_execute s st).1 = s) ∨
    (∃ bal1, (agent_execute s st).1 = { s with bal := bal1 } ∧
      (agent_execute s st).2 = .ok () ∧
      (transfer s.bal (st.asset, vaultAddr) (st.asset, st.pool) st.amount
          = .ok bal1 ∨
       transfer s.bal (st.asset, st.pool) (st.asset, vaultAddr) st.amount
          = .ok bal1)) := by
  simp only [agent_execute]
  by_cases h0 : st.amount ≤ 0
  · rw [if_pos h0]; exact Or.inl ⟨⟨_, rfl⟩, rfl⟩
  rw [if_neg h0]
  cases hact : st.action
  · rcases htr : transfer s.bal (st.asset, vaultAddr) (st.asset, st.pool)
        st.amount with e | bal1
    · exact Or.inl ⟨⟨_, rfl⟩, rfl⟩
    · exact Or.inr ⟨bal1, rfl, rfl, Or.inl rfl⟩
  · rcases htr : transfer s.bal (st.asset, st.pool) (st.asset, vaultAddr)
        st.amount with e | bal1
    · exact Or.inl ⟨⟨_, rfl⟩, rfl⟩
    · exact Or.inr ⟨bal1, rfl, rfl, Or.inr rfl⟩
  · exact Or.inl ⟨⟨_, rfl⟩, rfl⟩

/-- Case analysis of `distribute_yield`. -/
theorem distribute_yield_spec (s : State) :
    ((∃ e, (distribute_yield s).2 = .error e) ∧ (distribute_yield s).1 = s) ∨
    (∃ bal1,
      0 < get_total_vault_assets s - s.initialDeposits ∧
      0 < i128div ((get_total_vault_assets s - s.initialDeposits)
            * PLATFORM_FEE_BPS) BPS_DENOMINATOR ∧
      transfer s.bal (s.usdc, vaultAddr) (s.usdc, s.platform)
        (i128div ((get_total_vault_assets s - s.initialDeposits)
          * PLATFORM_FEE_BPS) BPS_DENOMINATOR) = .ok bal1 ∧
      distribute_yield s =
        ({ s with bal := bal1,
                  initialDeposits := s.initialDeposits +
                    ((get_total_vault_assets s - s.initialDeposits) -
                      i128div ((get_total_vault_assets s - s.initialDeposits)
                        * PLATFORM_FEE_BPS) BPS_DENOMINATOR),
                  yieldEvents :=
                    (get_total_vault_assets s - s.initialDeposits,
                     i128div ((get_total_vault_assets s - s.initialDeposits)
                       * PLATFORM_FEE_BPS) BPS_DENOMINATOR) :: s.yieldEvents },
         .ok ())) := by
  simp only [distribute_yield, get_total_vault_assets]
  by_cases h0 : alGet s.bal (s.usdc, vaultAddr) - s.initialDeposits ≤ 0
  · rw [if_pos h0]; exact Or.inl ⟨⟨_, rfl⟩, rfl⟩
  rw [if_neg h0]
  by_cases h1 : i128div ((alGet s.bal (s.usdc, vaultAddr) - s.initialDeposits)
      * PLATFORM_FEE_BPS) BPS_DENOMINATOR ≤ 0
  · rw [if_pos h1]; exact Or.inl ⟨⟨_, rfl⟩, rfl⟩
  rw [if_neg h1]
  rcases htr : transfer s.bal (s.usdc, vaultAddr) (s.usdc, s.platform)
      (i128div ((alGet s.bal (s.usdc, vaultAddr) - s.initialDeposits)
        * PLATFORM_FEE_BPS) BPS_DENOMINATOR) with e | bal1
  · exact Or.inl ⟨⟨_, rfl⟩, rfl⟩
  · exact Or.inr ⟨bal1, by omega, by omega, rfl, rfl⟩

theorem WF_deposit {s : State} (h : WF s) (u : Addr) (a : Int) :
    WF (deposit s u a).1 := by
  obtain ⟨hI, hsum, hpos, hnd, hB, hbal⟩ := h
  rcases deposit_spec s u a with ⟨_, heq⟩ | ⟨m, bal1, ha, hm, _, htr, heq⟩
  · rw [heq]; exact ⟨hI, hsum, hpos, hnd, hB, hbal⟩
  · have h1 : (deposit s u a).1 =
        { s with bal := bal1,
                 totalShares := s.totalShares + m,
                 initialDeposits := s.initialDeposits + a,
                 ledger := alSet s.ledger u (alGet s.ledger u + m) } := by
      rw [heq]
    rw [h1]
    have hg : 0 ≤ alGet s.ledger u := alGet_nonneg u (fun p hp => (hpos p hp).le)
    refine ⟨hI, ?_, ?_, nodup_keys_alSet u _ hnd,
      show 0 ≤ s.initialDeposits + a by omega,
      transfer_nonneg hbal htr⟩
    · show alSum (alSet s.ledger u (alGet s.ledger u + m)) = s.totalShares + m
      rw [alSum_alSet u _ hnd]
      omega
    · intro p hp
      rcases mem_alSet hp with hp1 | hp1
      · rw [hp1]; show 0 < alGet s.ledger u + m; omega
      · exact hpos p hp1

theorem WF_withdraw {s : State} (h : WF s) (u : Addr) (n : Int) :
    WF (withdraw s u n).1 := by
  obtain ⟨hI, hsum, hpos, hnd, hB, hbal⟩ := h
  rcases withdraw_spec s u n with ⟨_, heq⟩ |
    ⟨r, bal1, hn, hnle, _, hr, hrle, htr, heq⟩
  · rw [heq]; exact ⟨hI, hsum, hpos, hnd, hB, hbal⟩
  · have hg : 0 ≤ alGet s.ledger u := alGet_nonneg u (fun p hp => (hpos p hp).le)
    have hgle : alGet s.ledger u ≤ alSum s.ledger :=
      alGet_le_alSum u (fun p hp => (hpos p hp).le)
    have hT : 0 < s.totalShares := by omega
    have h1 : (withdraw s u n).1 =
        { s with ledger :=
                   if alGet s.ledger u - n = 0 then alRemove s.ledger u
                   else alSet s.ledger u (alGet s.ledger u - n),
                 totalShares := s.totalShares - n,
                 initialDeposits := s.initialDeposits -
                   (if s.totalShares > 0 then
                      i128div (s.initialDeposits * n) s.totalShares
                    else s.initialDeposits),
                 bal := bal1 } := by
      rw [heq]
    rw [h1]
    refine ⟨hI, ?_, ?_, ?_, ?_, transfer_nonneg hbal htr⟩
    · show alSum (if alGet s.ledger u - n = 0 then alRemove s.ledger u
          else alSet s.ledger u (alGet s.ledger u - n)) = s.totalShares - n
      by_cases hz : alGet s.ledger u - n = 0
      · rw [if_pos hz, alSum_alRemove u hnd]; omega
      · rw [if_neg hz, alSum_alSet u _ hnd]; omega
    · intro p hp
      by_cases hz : alGet s.ledger u - n = 0
      · rw [if_pos hz] at hp
        exact hpos p (mem_alRemove hp)
      · rw [if_neg hz] at hp
        rcases mem_alSet hp with hp1 | hp1
        · rw [hp1]; show 0 < alGet s.ledger u - n; omega
        · exact hpos p hp1
    · show ((if alGet s.ledger u - n = 0 then alRemove s.ledger u
          else alSet s.ledger u (alGet s.ledger u - n)).map Prod.fst).Nodup
      by_cases hz : alGet s.ledger u - n = 0
      · rw [if_pos hz]; exact nodup_keys_alRemove u hnd
      · rw [if_neg hz]; exact nodup_keys_alSet u _ hnd
    · show 0 ≤ s.initialDeposits -
        (if s.totalShares > 0 then i128div (s.initialDeposits * n) s.totalShares
         else s.initialDeposits)
      rw [if_pos hT]
      have h1 : 0 ≤ i128div (s.initialDeposits * n) s.totalShares :=
        i128div_nonneg (mul_nonneg hB (by omega)) hT.le
      have h2 : i128div (s.initialDeposits * n) s.totalShares ≤ s.initialDeposits :=
        i128div_mul_le_self hB hT (by omega) (by omega)
      omega

theorem WF_agent_execute {s : State} (h : WF s) (st : Strategy) :
    WF (agent_execute s st).1 := by
  obtain ⟨hI, hsum, hpos, hnd, hB, hbal⟩ := h
  rcases agent_execute_spec s st with ⟨_, heq⟩ | ⟨bal1, heq, _, htr⟩
  · rw [heq]; exact ⟨hI, hsum, hpos, hnd, hB, hbal⟩
  · rw [heq]
    refine ⟨hI, hsum, hpos, hnd, hB, ?_⟩
    show ∀ p ∈ bal1, 0 ≤ p.2
    rcases htr with htr | htr
    · exact transfer_nonneg hbal htr
    · exact transfer_nonneg hbal htr

theorem WF_distribute_yield {s : State} (h : WF s) :
    WF (distribute_yield s).1 := by
  obtain ⟨hI, hsum, hpos, hnd, hB, hbal⟩ := h
  rcases distribute_yield_spec s with ⟨_, heq⟩ | ⟨bal1, hy, hf, htr, heq⟩
  · rw [heq]; exact ⟨hI, hsum, hpos, hnd, hB, hbal⟩
  · have h1 : (distribute_yield s).1 =
        { s with bal := bal1,
                 initialDeposits := s.initialDeposits +
                   ((get_total_vault_assets s - s.initialDeposits) -
                     i128div ((get_total_vault_assets s - s.initialDeposits)
                       * PLATFORM_FEE_BPS) BPS_DENOMINATOR),
                 yieldEvents :=
                   (get_total_vault_assets s - s.initialDeposits,
                    i128div ((get_total_vault_assets s - s.initialDeposits)
                      * PLATFORM_FEE_BPS) BPS_DENOMINATOR) :: s.yieldEvents } := by
      rw [heq]
    rw [h1]
    refine ⟨hI, hsum, hpos, hnd, ?_, transfer_nonneg hbal htr⟩
    show 0 ≤ s.initialDeposits + ((get_total_vault_assets s - s.initialDeposits)
      - i128div ((get_total_vault_assets s - s.initialDeposits)
          * PLATFORM_FEE_BPS) BPS_DENOMINATOR)
    have hfy : i128div ((get_total_vault_assets s - s.initialDeposits)
        * PLATFORM_FEE_BPS) BPS_DENOMINATOR
        ≤ get_total_vault_assets s - s.initialDeposits := fee_le_yield (by omega)
    omega

theorem WF_initVault {s : State} (h : WF s) (adm ag pl usd : Addr) :
    WF (initVault s adm ag pl usd).1 := by
  rcases initVault_spec s adm ag pl usd with ⟨_, heq⟩ | ⟨hninit, _⟩
  · rw [show (initVault s adm ag pl usd).1 = s from congrArg Prod.fst heq]
    exact h
  · rw [h.1] at hninit; cases hninit

theorem WF_of_reachable {s : State} (h : Reachable s) : WF s := by
  induction h with
  | init bal adm ag pl usd hbal =>
      rw [initVault, if_neg (by simp [pristine])]
      exact ⟨rfl, rfl, by simp [pristine], by simp [pristine], le_refl 0, hbal⟩
  | dep u a _ ih => exact WF_deposit ih u a
  | wd u n _ ih => exact WF_withdraw ih u n
  | exec st _ ih => exact WF_agent_execute ih st
  | dist _ ih => exact WF_distribute_yield ih
  | reinit adm ag pl usd _ ih => exact WF_initVault ih adm ag pl usd

/-- C1: Solvency invariant: in every state reachable by a sequence of
initialize/deposit/withdraw/agent_execute/distribute_yield calls, the sum of
all users' ledger share balances equals the stored total_shares, and
get_share_value() * total_shares / SCALE does not exceed the live vault
asset balance (no rounding slack is even needed). -/
theorem C1_solvency {s : State} (h : Reachable s) :
    alSum s.ledger = s.totalShares ∧
    i128div (get_share_value s * s.totalShares) INITIAL_SHARE_VALUE
      ≤ get_total_vault_assets s := by
  obtain ⟨hI, hsum, hpos, hnd, hB, hbal⟩ := WF_of_reachable h
  refine ⟨hsum, ?_⟩
  have hL : 0 ≤ get_total_vault_assets s := alGet_nonneg _ hbal
  have hT : 0 ≤ s.totalShares := by
    have := alSum_nonneg (l := s.ledger) (fun p hp => (hpos p hp).le)
    omega
  simp only [get_share_value, calculate_share_value]
  by_cases hT0 : s.totalShares = 0
  · rw [if_pos hT0, hT0, mul_zero]
    show i128div 0 INITIAL_SHARE_VALUE ≤ get_total_vault_assets s
    rw [show i128div 0 INITIAL_SHARE_VALUE = 0 from rfl]
    exact hL
  · rw [if_neg hT0, mul_comm]
    exact redeem_le_assets hL (by omega) hT le_rfl

/-- C1 witness: the invariant instantiated at a concrete reachable state. -/
theorem C1_solvency_witness :
    alSum exReach.ledger = exReach.totalShares ∧
    i128div (get_share_value exReach * exReach.totalShares)
        INITIAL_SHARE_VALUE
      ≤ get_total_vault_assets exReach :=
  C1_solvency (Reachable.dep 7 100
    (Reachable.init [((1, 7), 1000)] 9 3 2 1 (by decide)))

/-- C2: Error atomicity: for every public operation and every input, a run
that returns an error leaves the whole vault state (config, total_shares,
deposit basis, every ledger entry, token balances and events) exactly as it
was before the call. -/
theorem C2_error_atomicity (s : State) :
    (∀ adm ag pl usd e, (initVault s adm ag pl usd).2 = .error e →
        (initVault s adm ag pl usd).1 = s) ∧
    (∀ u a e, (deposit s u a).2 = .error e → (deposit s u a).1 = s) ∧
    (∀ u n e, (withdraw s u n).2 = .error e → (withdraw s u n).1 = s) ∧
    (∀ st e, (agent_execute s st).2 = .error e →
        (agent_execute s st).1 = s) ∧
    (∀ e, (distribute_yield s).2 = .error e → (distribute_yield s).1 = s) := by
  refine ⟨?_, ?_, ?_, ?_, ?_⟩
  · intro adm ag pl usd e he
    rcases initVault_spec s adm ag pl usd with ⟨_, heq⟩ | ⟨_, heq⟩
    · rw [heq]
    · rw [heq] at he; simp at he
  · intro u a e he
    rcases deposit_spec s u a with ⟨_, hst⟩ | ⟨m, bal1, _, _, _, _, heq⟩
    · exact hst
    · rw [heq] at he; simp at he
  · intro u n e he
    rcases withdraw_spec s u n with ⟨_, hst⟩ |
      ⟨r, bal1, _, _, _, _, _, _, heq⟩
    · exact hst
    · rw [heq] at he; simp at he
  · intro st e he
    rcases agent_execute_spec s st with ⟨_, hst⟩ | ⟨bal1, _, hok, _⟩
    · exact hst
    · rw [hok] at he; simp at he
  · intro e he
    rcases distribute_yield_spec s with ⟨_, hst⟩ | ⟨bal1, _, _, _, heq⟩
    · exact hst
    · rw [heq] at he; simp at he

/-- C2 witness: withdrawing 501 shares from a 500-share holding fails with
InsufficientShares and changes nothing. -/
theorem C2_error_atomicity_witness :
    (withdraw ex2 5 501).2 = .error .InsufficientShares ∧
    (withdraw ex2 5 501).1 = ex2 :=
  ⟨by decide,
   (C2_error_atomicity ex2).2.2.1 5 501 .InsufficientShares (by decide)⟩

/-- C9: agent_execute frame: whether it succeeds or fails, a call leaves
total_shares, deposit basis and every user ledger entry unchanged; only
token balances move. -/
theorem C9_agent_execute_frame (s : State) (st : Strategy) :
    (agent_execute s st).1.totalShares = s.totalShares ∧
    (agent_execute s st).1.initialDeposits = s.initialDeposits ∧
    (agent_execute s st).1.ledger = s.ledger ∧
    ∀ u, get_user_shares (agent_execute s st).1 u = get_user_shares s u := by
  rcases agent_execute_spec s st with ⟨_, heq⟩ | ⟨bal1, heq, _, _⟩
  · rw [heq]; exact ⟨rfl, rfl, rfl, fun u => rfl⟩
  · rw [heq]; exact ⟨rfl, rfl, rfl, fun u => rfl⟩

/-- C10: the InsufficientBalance branch of withdraw is unreachable in any
state satisfying the share-sum invariant with a nonnegative live vault
balance: the redeemed amount is priced from that same live balance and can
never exceed it. -/
theorem C10_insufficient_balance_unreachable {s : State} {u : Addr} {n : Int}
    (hsum : alSum s.ledger = s.totalShares)
    (hpos : ∀ p ∈ s.ledger, 0 < p.2)
    (hL : 0 ≤ get_total_vault_assets s)
    (hn : 0 < n) (hnle : n ≤ alGet s.ledger u) :
    (withdraw s u n).2 ≠ .error .InsufficientBalance := by
  have hgle : alGet s.ledger u ≤ alSum s.ledger :=
    alGet_le_alSum u (fun p hp => (hpos p hp).le)
  have hT : 0 < s.totalShares := by omega
  have hL' : 0 ≤ alGet s.bal (s.usdc, vaultAddr) := hL
  simp only [withdraw, get_total_vault_assets]
  rw [if_neg (by omega : ¬ n ≤ 0), if_neg (not_lt.mpr hnle)]
  by_cases h2 : i128div (n * calculate_share_value s) INITIAL_SHARE_VALUE ≤ 0
  · rw [if_pos h2]; intro hc; simp at hc
  rw [if_neg h2]
  have hv : calculate_share_value s
      = i128div (alGet s.bal (s.usdc, vaultAddr) * INITIAL_SHARE_VALUE)
          s.totalShares := by
    simp only [calculate_share_value, get_total_vault_assets]
    rw [if_neg hT.ne']
  have hbound : i128div (n * calculate_share_value s) INITIAL_SHARE_VALUE
      ≤ alGet s.bal (s.usdc, vaultAddr) := by
    rw [hv]
    exact redeem_le_assets hL' hT hn.le (by omega)
  rw [if_neg (not_lt.mpr hbound)]
  rw [transfer_eq_ok (by omega) hbound]
  intro hc; simp at hc

/-- C10 witness: a full withdrawal from the 500-share state never reports
InsufficientBalance. -/
theorem C10_insufficient_balance_witness :
    (withdraw ex2 5 500).2 ≠ .error .InsufficientBalance :=
  C10_insufficient_balance_unreachable (by decide) (by decide) (by decide)
    (by decide) (by decide)

/-- C3: distribute_yield postcondition: when live assets exceed the basis and
the 2% fee is positive, the call succeeds, transfers exactly the fee from the
vault to the platform, and raises the basis by the users' 98% slice. -/
theorem C3_yield_split {s : State}
    (hB : 0 ≤ s.initialDeposits) (hplat : s.platform ≠ vaultAddr)
    (hy : 0 < get_total_vault_assets s - s.initialDeposits)
    (hf : 0 < i128div ((get_total_vault_assets s - s.initialDeposits)
            * PLATFORM_FEE_BPS) BPS_DENOMINATOR) :
    (distribute_yield s).2 = .ok () ∧
    (distribute_yield s).1.initialDeposits
      = s.initialDeposits + ((get_total_vault_assets s - s.initialDeposits)
          - i128div ((get_total_vault_assets s - s.initialDeposits)
              * PLATFORM_FEE_BPS) BPS_DENOMINATOR) ∧
    get_total_vault_assets (distribute_yield s).1
      = get_total_vault_assets s
          - i128div ((get_total_vault_assets s - s.initialDeposits)
              * PLATFORM_FEE_BPS) BPS_DENOMINATOR ∧
    alGet (distribute_yield s).1.bal (s.usdc, s.platform)
      = alGet s.bal (s.usdc, s.platform)
          + i128div ((get_total_vault_assets s - s.initialDeposits)
              * PLATFORM_FEE_BPS) BPS_DENOMINATOR := by
  have hLdef : get_total_vault_assets s = alGet s.bal (s.usdc, vaultAddr) := rfl
  rw [hLdef] at hy hf
  have hfy : i128div ((alGet s.bal (s.usdc, vaultAddr) - s.initialDeposits)
      * PLATFORM_FEE_BPS) BPS_DENOMINATOR
      ≤ alGet s.bal (s.usdc, vaultAddr) - s.initialDeposits :=
    fee_le_yield (by omega)
  have hfle : i128div ((alGet s.bal (s.usdc, vaultAddr) - s.initialDeposits)
      * PLATFORM_FEE_BPS) BPS_DENOMINATOR ≤ alGet s.bal (s.usdc, vaultAddr) := by
    omega
  have hne : ((s.usdc, vaultAddr) : Addr × Addr) ≠ (s.usdc, s.platform) :=
    fun hc => hplat (congrArg Prod.snd hc).symm
  have htr := @transfer_eq_ok (Addr × Addr) _ s.bal (s.usdc, vaultAddr)
    (s.usdc, s.platform)
    (i128div ((alGet s.bal (s.usdc, vaultAddr) - s.initialDeposits)
      * PLATFORM_FEE_BPS) BPS_DENOMINATOR) hf.le hfle
  obtain ⟨hdst, hsrc, _⟩ := transfer_ok_get hne htr
  simp only [distribute_yield, get_total_vault_assets]
  rw [if_neg (by omega :
    ¬ alGet s.bal (s.usdc, vaultAddr) - s.initialDeposits ≤ 0)]
  rw [if_neg (not_le.mpr hf), htr]
  exact ⟨rfl, rfl, hsrc, hdst⟩

/-- C3 witness: the spec's concrete example: basis 10^9, live balance
1.1*10^9, yielding fee 2_000_000 to the platform and a new basis of
1_098_000_000. -/
theorem C3_yield_split_witness :
    (distribute_yield exYield).2 = .ok () ∧
    (distribute_yield exYield).1.initialDeposits = 1098000000 ∧
    get_total_vault_assets (distribute_yield exYield).1 = 1098000000 ∧
    alGet (distribute_yield exYield).1.bal (exYield.usdc, exYield.platform)
      = 2000000 :=
  ⟨(C3_yield_split (s := exYield) (by decide) (by decide) (by decide)
      (by decide)).1,
   by decide, by decide, by decide⟩

/-- C6 counterexample: at a state with yield 100_000_000 the successful call
returns the unit value (), not the pair; (yield_earned, platform_fee) =
(100000000, 2000000) appears only in the published event payload. -/
theorem C6_counterexample :
    (distribute_yield exYield).2 = .ok () ∧
    (distribute_yield exYield).1.yieldEvents = [(100000000, 2000000)] :=
  ⟨by decide, by decide⟩

/-- C6 amended: a successful distribute_yield returns `()`; the pair
(yield_earned, platform_fee) it computes is reported through the published
yield event, not through the return value. -/
theorem C6_yield_event {s : State} (h : (distribute_yield s).2 = .ok ()) :
    (distribute_yield s).1.yieldEvents
      = (get_total_vault_assets s - s.initialDeposits,
         i128div ((get_total_vault_assets s - s.initialDeposits)
           * PLATFORM_FEE_BPS) BPS_DENOMINATOR) :: s.yieldEvents := by
  rcases distribute_yield_spec s with ⟨⟨e, he⟩, _⟩ | ⟨bal1, _, _, _, heq⟩
  · rw [h] at he; simp at he
  · rw [heq]

/-- C6 witness: the amended statement at the concrete yield state. -/
theorem C6_yield_event_witness :
    (distribute_yield exYield).1.yieldEvents
      = (get_total_vault_assets exYield - exYield.initialDeposits,
         i128div ((get_total_vault_assets exYield - exYield.initialDeposits)
           * PLATFORM_FEE_BPS) BPS_DENOMINATOR) :: exYield.yieldEvents :=
  C6_yield_event (by decide)

/-- C7 counterexample: when the configured platform account is the vault
contract itself, the fee "transfer" is a self-transfer that leaves live
assets unchanged, so the basis rises by only 98% of the yield and the second
call succeeds again instead of failing NoYieldToDistribute. -/
theorem C7_counterexample :
    (distribute_yield exSelfPlat).2 = .ok () ∧
    (distribute_yield (distribute_yield exSelfPlat).1).2 = .ok () :=
  ⟨by decide, by decide⟩

/-- C7 amended: double distribution guard: if distribute_yield succeeds (with the
platform account distinct from the vault's own) and no balance changes
happen in between, an immediate second call fails NoYieldToDistribute: the
fee transfer and basis increase make the new live assets equal the new
basis. -/
theorem C7_double_distribution {s : State} (hplat : s.platform ≠ vaultAddr)
    (h : (distribute_yield s).2 = .ok ()) :
    (distribute_yield (distribute_yield s).1).2
      = .error .NoYieldToDistribute := by
  rcases distribute_yield_spec s with ⟨⟨e, he⟩, _⟩ | ⟨bal1, hy, hf, htr, heq⟩
  · rw [h] at he; simp at he
  · have hne : ((s.usdc, vaultAddr) : Addr × Addr) ≠ (s.usdc, s.platform) :=
      fun hc => hplat (congrArg Prod.snd hc).symm
    obtain ⟨hdst, hsrc, _⟩ := transfer_ok_get hne htr
    have h1 : (distribute_yield s).1 =
        { s with bal := bal1,
                 initialDeposits := s.initialDeposits +
                   ((get_total_vault_assets s - s.initialDeposits) -
                     i128div ((get_total_vault_assets s - s.initialDeposits)
                       * PLATFORM_FEE_BPS) BPS_DENOMINATOR),
                 yieldEvents :=
                   (get_total_vault_assets s - s.initialDeposits,
                    i128div ((get_total_vault_assets s - s.initialDeposits)
                      * PLATFORM_FEE_BPS) BPS_DENOMINATOR)
                     :: s.yieldEvents } := by
      rw [heq]
    rw [h1]
    have hL2 : alGet bal1 (s.usdc, vaultAddr)
        = alGet s.bal (s.usdc, vaultAddr)
            - i128div ((get_total_vault_assets s - s.initialDeposits)
                * PLATFORM_FEE_BPS) BPS_DENOMINATOR := hsrc
    have hLdef : get_total_vault_assets s = alGet s.bal (s.usdc, vaultAddr) :=
      rfl
    simp only [distribute_yield, get_total_vault_assets]
    rw [if_pos (show alGet bal1 (s.usdc, vaultAddr)
      - (s.initialDeposits + (alGet s.bal (s.usdc, vaultAddr)
          - s.initialDeposits -
          i128div ((alGet s.bal (s.usdc, vaultAddr) - s.initialDeposits)
            * PLATFORM_FEE_BPS) BPS_DENOMINATOR)) ≤ 0 by
      rw [hLdef] at hsrc
      omega)]

/-- C7 witness: the guard fires at the concrete yield state. -/
theorem C7_double_distribution_witness :
    (distribute_yield (distribute_yield exYield).1).2
      = .error .NoYieldToDistribute :=
  C7_double_distribution (by decide) (by decide)

/-- Withdrawing all `A` shares from a par-valued position (the holder owns
`A` shares, `A` total shares are outstanding, and the vault holds exactly
`A` assets) returns exactly `A`. -/
theorem withdraw_par {t : State} {u : Addr} {A : Int} (hA : 0 < A)
    (hledger : alGet t.ledger u = A) (hT : t.totalShares = A)
    (hL : alGet t.bal (t.usdc, vaultAddr) = A) :
    (withdraw t u A).2 = .ok A := by
  have hS : (0 : Int) < INITIAL_SHARE_VALUE := by norm_num [INITIAL_SHARE_VALUE]
  have hv : calculate_share_value t = INITIAL_SHARE_VALUE := by
    simp only [calculate_share_value, get_total_vault_assets]
    rw [if_neg (by omega), hL, hT, mul_comm]
    exact i128div_mul_cancel hS.le hA
  simp only [withdraw, get_total_vault_assets]
  rw [hv, hledger, i128div_mul_cancel hA.le hS, hL]
  rw [if_neg (by omega : ¬ A ≤ 0), if_neg (by omega : ¬ A < A),
    if_neg (by omega : ¬ A ≤ 0), if_neg (by omega : ¬ A < A)]
  rw [transfer_eq_ok (by omega) (by rw [hL])]

/-- C4 amended: on a fresh vault (no outstanding shares and no vault
balance), depositing A > 0 mints exactly A shares, and immediately
withdrawing all A of them succeeds and returns exactly A. -/
theorem C4_roundtrip_fresh {s : State} {u : Addr} {A : Int}
    (hT : s.totalShares = 0) (hL : get_total_vault_assets s = 0)
    (hu : u ≠ vaultAddr) (hg : alGet s.ledger u = 0)
    (hA : 0 < A) (hbal : A ≤ alGet s.bal (s.usdc, u)) :
    (deposit s u A).2 = .ok A ∧
    (withdraw (deposit s u A).1 u A).2 = .ok A := by
  have hS : (0 : Int) < INITIAL_SHARE_VALUE := by norm_num [INITIAL_SHARE_VALUE]
  have hv0 : calculate_share_value s = INITIAL_SHARE_VALUE := by
    simp only [calculate_share_value]
    rw [if_pos hT]
  have hmint : (if calculate_share_value s = 0 then A
      else i128div (A * INITIAL_SHARE_VALUE) (calculate_share_value s)) = A := by
    rw [hv0, if_neg hS.ne', i128div_mul_cancel hA.le hS]
  have hne : ((s.usdc, u) : Addr × Addr) ≠ (s.usdc, vaultAddr) :=
    fun hc => hu (congrArg Prod.snd hc)
  have htr := @transfer_eq_ok (Addr × Addr) _ s.bal (s.usdc, u)
    (s.usdc, vaultAddr) A hA.le hbal
  obtain ⟨hdst, _, _⟩ := transfer_ok_get hne htr
  have hdep : deposit s u A =
      ({ s with bal := alSet (alSet s.bal (s.usdc, u) (alGet s.bal (s.usdc, u) - A))
                  (s.usdc, vaultAddr)
                  (alGet (alSet s.bal (s.usdc, u) (alGet s.bal (s.usdc, u) - A))
                    (s.usdc, vaultAddr) + A),
                totalShares := s.totalShares + A,
                initialDeposits := s.initialDeposits + A,
                ledger := alSet s.ledger u (alGet s.ledger u + A) },
       .ok A) := by
    simp only [deposit]
    rw [hmint, if_neg (by omega : ¬ A ≤ 0), if_neg (by omega : ¬ A ≤ 0), htr]
  refine ⟨by rw [hdep], ?_⟩
  rw [show (deposit s u A).1 = _ from congrArg Prod.fst hdep]
  apply withdraw_par hA
  · show alGet (alSet s.ledger u (alGet s.ledger u + A)) u = A
    rw [alGet_alSet_self, hg, zero_add]
  · show s.totalShares + A = A
    omega
  · show alGet (alSet (alSet s.bal (s.usdc, u) (alGet s.bal (s.usdc, u) - A))
        (s.usdc, vaultAddr)
        (alGet (alSet s.bal (s.usdc, u) (alGet s.bal (s.usdc, u) - A))
          (s.usdc, vaultAddr) + A)) (s.usdc, vaultAddr) = A
    have hL0 : alGet s.bal (s.usdc, vaultAddr) = 0 := hL
    rw [alGet_alSet_self, alGet_alSet_ne _ _ hne, hL0, zero_add]

/-- C4 witness: on the fresh vault, a deposit of 1000 round-trips to exactly
1000. -/
theorem C4_roundtrip_fresh_witness :
    (deposit ex4w 7 1000).2 = .ok 1000 ∧
    (withdraw (deposit ex4w 7 1000).1 7 1000).2 = .ok 1000 :=
  C4_roundtrip_fresh (by decide) (by decide) (by decide) (by decide)
    (by decide) (by decide)

/-- C4 counterexample: with one outstanding share worth 10^9 units,
depositing A = 1_500_000_000 mints exactly 1 share (it is the full minted
amount) and withdrawing that share returns 1_250_000_000, which is less than
A - 1, so the round-trip bound of the claim fails for this vault state. -/
theorem C4_counterexample :
    (deposit ex4 7 1500000000).2 = .ok 1 ∧
    (withdraw (deposit ex4 7 1500000000).1 7 1).2 = .ok 1250000000 ∧
    (1250000000 : Int) < 1500000000 - 1 :=
  ⟨by decide, by decide, by decide⟩

/-- C5 amended: on every successful deposit the pulled assets fund the vault
via the transfer port, total_shares grows by shares_minted (not by amount),
the deposit basis grows by amount, and the user's ledger entry grows by
shares_minted. -/
theorem C5_deposit_effects {s : State} {u : Addr} {a m : Int}
    (h : (deposit s u a).2 = .ok m) :
    (deposit s u a).1.totalShares = s.totalShares + m ∧
    (deposit s u a).1.initialDeposits = s.initialDeposits + a ∧
    alGet (deposit s u a).1.ledger u = alGet s.ledger u + m ∧
    transfer s.bal (s.usdc, u) (s.usdc, vaultAddr) a
      = .ok (deposit s u a).1.bal := by
  rcases deposit_spec s u a with ⟨⟨e, he⟩, _⟩ | ⟨m', bal1, _, _, _, htr, heq⟩
  · rw [h] at he; simp at he
  · have hm : m' = m := by
      rw [heq] at h
      simpa using h
    subst hm
    rw [show (deposit s u a).1 = _ from congrArg Prod.fst heq]
    exact ⟨rfl, rfl, alGet_alSet_self _ _ _, htr⟩

/-- C5 counterexample: at share value 2*10^7, depositing 2 mints 1 share and
total_shares rises from 1 to 2, not by the deposited amount 2 (which would
give 3): the claim's "total_shares grows by amount" is false. -/
theorem C5_counterexample :
    (deposit ex5 7 2).2 = .ok 1 ∧
    (deposit ex5 7 2).1.totalShares = 2 ∧
    ex5.totalShares + 2 ≠ (2 : Int) :=
  ⟨by decide, by decide, by decide⟩

/-- C5 witness: the amended side-effect description instantiated at the
non-par deposit. -/
theorem C5_deposit_effects_witness :
    (deposit ex5 7 2).1.totalShares = ex5.totalShares + 1 ∧
    (deposit ex5 7 2).1.initialDeposits = ex5.initialDeposits + 2 ∧
    alGet (deposit ex5 7 2).1.ledger 7 = alGet ex5.ledger 7 + 1 ∧
    transfer ex5.bal (ex5.usdc, 7) (ex5.usdc, vaultAddr) 2
      = .ok (deposit ex5 7 2).1.bal :=
  C5_deposit_effects (by decide)

/-- C8: the deposit share computation is not overflow-checked.  At share
value 2*10^7, deposit(7, 4*10^31) forms the product 4*10^38 > i128::MAX;
under the release-profile wrapping semantics the call returns
Ok(2985881653953076826831269628411) — a silently wrong share count instead
of the explicit arithmetic error the specification requires (the enum's
DivisionByZero variant is declared but never constructed anywhere). -/
theorem C8_unchecked_overflow :
    i128Max < 40000000000000000000000000000000 * INITIAL_SHARE_VALUE ∧
    (deposit_wrapped exOvf 7 40000000000000000000000000000000).2
      = .ok 2985881653953076826831269628411 ∧
    (2985881653953076826831269628411 : Int)
      ≠ i128div (40000000000000000000000000000000 * INITIAL_SHARE_VALUE)
          (calculate_share_value exOvf) :=
  ⟨by decide, by decide, by decide⟩

end Tuxedo
